import Mathlib

/-!
Verification development for the tree-walking content-resolution engine of
vite-plugin-json-md (src/index.ts and src/unnamed/part_000).

The engine walks a parsed JSON-like document, locates string fields that
begin with the reserved marker "md:", resolves their content (inline text,
or a file read from the markdown root for the "md:@" form) and replaces the
field with the rendered result.  JavaScript mutation-in-place with exception
propagation is embedded as explicit state passing: a traversal returns the
final state of the document together with an optional error; on an error the
returned document is the partially mutated state at the moment the exception
was thrown (fields already assigned keep their new values, the rest are
untouched), exactly as the in-place JS object would be.
-/

/-- Model of `content.startsWith(prefixString)` (JS String.prototype.startsWith),
computed on the character list so that concrete instances reduce in the kernel. -/
def strStartsWith (s pre : String) : Bool :=
  pre.toList.isPrefixOf s.toList

/-- Model of `content.slice(n)` for a nonnegative `n` (JS String.prototype.slice). -/
def strDrop (s : String) (n : Nat) : String :=
  String.mk (s.toList.drop n)

/-- Helper for substring tests on character lists: does `needle` occur inside `hay`? -/
def containsAux (hay needle : List Char) : Bool :=
  match hay with
  | [] => needle.isEmpty
  | _ :: t => needle.isPrefixOf hay || containsAux t needle

/-- Does the string `needle` occur as a substring of `hay`? Used to state what an
error value does and does not identify. -/
def strContains (hay needle : String) : Bool :=
  containsAux hay.toList needle.toList

/-- Model of `path.join(dir, rel)` (node:path) for inputs in normal form: the two
segments glued with a single separator (and `dir = ""` yielding `rel`).  Dot-segment
normalisation is outside the embedding; no claim depends on it. -/
def pathJoin (dir rel : String) : String :=
  if dir = "" then rel else dir ++ "/" ++ rel

/-- The document tree produced by `JSON5.parse`: string leaves, other scalar
leaves (number / boolean / null), ordered sequences, and key-ordered mappings
(src/index.ts works on exactly these shapes via `typeof` dispatch). -/
inductive JsonValue where
  | str (s : String)
  | num (n : Int)
  | bool (b : Bool)
  | null
  | arr (xs : List JsonValue)
  | obj (fields : List (String × JsonValue))

/-- The error thrown by `fs.readFileSync` on an unreadable file (src/index.ts
line 170); its observable payload is the path it was asked to open.  This is the
event the spec's error taxonomy calls ContentResolutionError. -/
inductive FsError where
  | enoent (path : String)
deriving DecidableEq

/-- The environment of the traversal: the ambient `marked` renderer and `fs`
module imported at the top of src/index.ts, plus the `markdownDir` and
`parseMarkdown` arguments threaded through `traverseJsonNodes`.  `fsRead`
returns `none` exactly when `fs.readFileSync` would throw. -/
structure PluginCtx where
  marked : String → String
  fsRead : String → Option String
  markdownDir : String
  parseMarkdown : Bool

/-- The render-policy-relevant subset of the plugin options: `parseMarkdown`
(src/index.ts lines 34-38) and `externalLinks`, which is declared and documented
in the options declaration (src/index.ts lines 378-383: add target-new-context
and no-referrer attributes to all links). -/
structure JsonMdPluginOptions where
  parseMarkdown : Bool
  externalLinks : Bool

/-- How `jsonMdPlugin` (src/index.ts lines 80-90) turns its options into the
state used by the traversal: it destructures `parseMarkdown` (among the I/O
options) and never reads `externalLinks`, so the context contains no trace of
that option. -/
def ctxOfOptions (marked : String → String) (fsRead : String → Option String)
    (markdownDir : String) (o : JsonMdPluginOptions) : PluginCtx :=
  ⟨marked, fsRead, markdownDir, o.parseMarkdown⟩

/-- The render step as inlined twice in `handleMarkdownContent` (src/index.ts
lines 171 and 174-176): `parseMarkdown ? marked(text) : text`.  This is the
spec's render-policy adapter; the implementation passes no link policy to the
renderer. -/
def render (c : PluginCtx) (text : String) : String :=
  if c.parseMarkdown then c.marked text else text

/-- `handleMarkdownContent` (src/index.ts lines 162-177): for a string already
known to start with "md:", either read an external file ("md:@" form, path
joined under `markdownDir`, a failed read throwing the fs error) or use the
inline remainder, and render the resolved text. -/
def handleMarkdownContent (c : PluginCtx) (content : String) : Except FsError String :=
  if strStartsWith content "md:@" then
    match c.fsRead (pathJoin c.markdownDir (strDrop content 4)) with
    | some mdContent => .ok (render c mdContent)
    | none => .error (.enoent (pathJoin c.markdownDir (strDrop content 4)))
  else
    .ok (render c (strDrop content 3))

mutual
/-- The body of the `forEach` in `traverseJsonNodes` (src/index.ts lines 139-155)
applied to one child value: a string starting with "md:" is replaced by
`handleMarkdownContent` (left unchanged if that throws), a non-null object or
array is recursed into, anything else is untouched. -/
def goEntry (c : PluginCtx) : JsonValue → JsonValue × Option FsError
  | .str s =>
    if strStartsWith s "md:" then
      match handleMarkdownContent c s with
      | .ok w => (.str w, none)
      | .error e => (.str s, some e)
    else (.str s, none)
  | .obj fields =>
    let r := goFields c fields
    (.obj r.1, r.2)
  | .arr xs =>
    let r := goElems c xs
    (.arr r.1, r.2)
  | v => (v, none)

/-- `Object.keys(jsonObject).forEach(...)` over a mapping's fields in order
(src/index.ts line 139): each entry is processed in turn; a thrown error aborts
the loop, leaving later entries untouched. -/
def goFields (c : PluginCtx) : List (String × JsonValue) → List (String × JsonValue) × Option FsError
  | [] => ([], none)
  | (k, x) :: rest =>
    let r := goEntry c x
    match r.2 with
    | some e => ((k, r.1) :: rest, some e)
    | none =>
      let r2 := goFields c rest
      ((k, r.1) :: r2.1, r2.2)

/-- The same `forEach` loop when the object is an array (`Object.keys` of an
array enumerates its indices in order). -/
def goElems (c : PluginCtx) : List JsonValue → List JsonValue × Option FsError
  | [] => ([], none)
  | x :: rest =>
    let r := goEntry c x
    match r.2 with
    | some e => (r.1 :: rest, some e)
    | none =>
      let r2 := goElems c rest
      (r.1 :: r2.1, r2.2)
end

/-- `traverseJsonNodes` (src/index.ts lines 133-157): the guard
`typeof jsonObject === "object" && jsonObject !== null` means only mappings and
arrays are processed; any other root value (including a root string) is left
untouched.  The returned pair is the final in-place state of the document and
the error that propagated out of the traversal, if any. -/
def traverseJsonNodes (c : PluginCtx) (v : JsonValue) : JsonValue × Option FsError :=
  match v with
  | .obj _ => goEntry c v
  | .arr _ => goEntry c v
  | _ => (v, none)

/-- `processMarkdown` (src/unnamed/part_000 lines 147-158): the second
implementation of the content handler, with `markdownDir` and `parseMarkdown`
captured from the enclosing plugin closure. -/
def processMarkdown (c : PluginCtx) (content : String) : Except FsError String :=
  if strStartsWith content "md:@" then
    match c.fsRead (pathJoin c.markdownDir (strDrop content 4)) with
    | some mdContent => .ok (render c mdContent)
    | none => .error (.enoent (pathJoin c.markdownDir (strDrop content 4)))
  else
    .ok (render c (strDrop content 3))

mutual
/-- The `forEach` body of `processJsonTree` (src/unnamed/part_000 lines 132-142)
applied to one child value. -/
def pEntry (c : PluginCtx) : JsonValue → JsonValue × Option FsError
  | .str s =>
    if strStartsWith s "md:" then
      match processMarkdown c s with
      | .ok w => (.str w, none)
      | .error e => (.str s, some e)
    else (.str s, none)
  | .obj fields =>
    let r := pFields c fields
    (.obj r.1, r.2)
  | .arr xs =>
    let r := pElems c xs
    (.arr r.1, r.2)
  | v => (v, none)

/-- The key loop of `processJsonTree` over a mapping's fields. -/
def pFields (c : PluginCtx) : List (String × JsonValue) → List (String × JsonValue) × Option FsError
  | [] => ([], none)
  | (k, x) :: rest =>
    let r := pEntry c x
    match r.2 with
    | some e => ((k, r.1) :: rest, some e)
    | none =>
      let r2 := pFields c rest
      ((k, r.1) :: r2.1, r2.2)

/-- The key loop of `processJsonTree` over an array's elements. -/
def pElems (c : PluginCtx) : List JsonValue → List JsonValue × Option FsError
  | [] => ([], none)
  | x :: rest =>
    let r := pEntry c x
    match r.2 with
    | some e => (r.1 :: rest, some e)
    | none =>
      let r2 := pElems c rest
      (r.1 :: r2.1, r2.2)
end

/-- `processJsonTree` (src/unnamed/part_000 lines 132-142): same guard and
dispatch as `traverseJsonNodes`. -/
def processJsonTree (c : PluginCtx) (v : JsonValue) : JsonValue × Option FsError :=
  match v with
  | .obj _ => pEntry c v
  | .arr _ => pEntry c v
  | _ => (v, none)

/-- The per-file step of `buildStart` (src/index.ts lines 101-125) after parsing:
traverse the document, and only on success hand the mutated document to the
serializer/writer; a thrown error propagates before `fs.writeFileSync` runs, so
no output is produced for that document. -/
def processFileModel (c : PluginCtx) (doc : JsonValue) : Except FsError JsonValue :=
  match traverseJsonNodes c doc with
  | (d, none) => .ok d
  | (_, some e) => .error e

/-- The same per-file step seen with the input file's path in scope: `buildStart`
knows `filePath` but has no try/catch, so the error that surfaces to the caller
is exactly the traversal's error, with no mention of the input file. -/
def processInputFile (c : PluginCtx) (filePath : String) (doc : JsonValue) :
    Except FsError JsonValue :=
  processFileModel c doc

/-- Modelled from the spec: inline token of the external markdown renderer's
input, either plain text or a hyperlink written `[label](href)` (spec section 8
scenarios; README example in src/index.ts lines 255-276). -/
inductive MdInline where
  | text (s : String)
  | link (label href : String)

/-- Modelled from the spec: how the default renderer emits one inline token; a
hyperlink becomes an anchor with only its href attribute (README example output,
src/index.ts line 276). -/
def renderInlineToken : MdInline → String
  | .text s => s
  | .link label href => "<a href=\"" ++ href ++ "\">" ++ label ++ "</a>"

/-- Splits a character list at the first occurrence of `c`, returning the part
before it and the part after it, or `none` when `c` does not occur. -/
def takeUntil (c : Char) : List Char → Option (List Char × List Char)
  | [] => none
  | x :: xs =>
    if x = c then some ([], xs)
    else
      match takeUntil c xs with
      | some (a, b) => some (x :: a, b)
      | none => none

/-- Modelled from the spec: a minimal inline scanner recognising `[label](href)`
hyperlinks, everything else passing through as text.  The `Nat` argument is
recursion fuel (always called with more fuel than characters), which keeps the
definition structurally recursive. -/
def parseInlinesFuel : Nat → List Char → List MdInline
  | 0, _ => []
  | _ + 1, [] => []
  | f + 1, '[' :: rest =>
    match takeUntil ']' rest with
    | some (label, '(' :: rest2) =>
      match takeUntil ')' rest2 with
      | some (href, rest3) =>
        .link (String.mk label) (String.mk href) :: parseInlinesFuel f rest3
      | none => .text "[" :: parseInlinesFuel f rest
    | _ => .text "[" :: parseInlinesFuel f rest
  | f + 1, ch :: rest => .text (String.mk [ch]) :: parseInlinesFuel f rest

/-- Modelled from the spec: the external `marked` markdown-to-HTML renderer (a
library dependency, not code of this repository), restricted to the fragment the
spec's scenarios and the README examples exercise: an ATX `# ` heading renders
as an h1 element, any other line as a paragraph, and `[label](href)` as an
anchor carrying only its href (no target or rel attributes by default). -/
def markedModel (s : String) : String :=
  if strStartsWith s "# " then "<h1>" ++ strDrop s 2 ++ "</h1>"
  else
    "<p>" ++
      String.join ((parseInlinesFuel (s.toList.length + 1) s.toList).map renderInlineToken) ++
    "</p>"

/-- A markdown root with no readable files: every read fails. -/
def fsEmpty : String → Option String := fun _ => none

/-- A markdown root holding the single file `x.md` with a hyperlink in its text
(the shape of the spec's external-file scenario). -/
def fsDemo : String → Option String :=
  fun p => if p = "md/x.md" then some "Hello [link](/y)" else none

/-- The value reached from `v` by a path of child indices: an index selects the
i-th entry of a mapping (in key order) or the i-th element of a sequence.  The
empty path is the root; paths never pass through scalar leaves. -/
def valueAt : JsonValue → List Nat → Option JsonValue
  | v, [] => some v
  | .obj fields, i :: p =>
    match fields[i]? with
    | some kx => valueAt kx.2 p
    | none => none
  | .arr xs, i :: p =>
    match xs[i]? with
    | some x => valueAt x p
    | none => none
  | _, _ :: _ => none

mutual
/-- The shape of a document: every string leaf blanked, all structure, keys,
lengths and non-string scalars kept.  Two documents have equal skeletons exactly
when they agree on everything except string contents. -/
def skeleton : JsonValue → JsonValue
  | .str _ => .str ""
  | .arr xs => .arr (skeletonElems xs)
  | .obj fields => .obj (skeletonFields fields)
  | v => v

/-- Skeletons of a field list, keys kept. -/
def skeletonFields : List (String × JsonValue) → List (String × JsonValue)
  | [] => []
  | (k, x) :: rest => (k, skeleton x) :: skeletonFields rest

/-- Skeletons of an element list. -/
def skeletonElems : List JsonValue → List JsonValue
  | [] => []
  | x :: rest => skeleton x :: skeletonElems rest
end

/-- A leaf the traversal may never alter: a number, boolean, null, or a string
that does not begin with the reserved marker. -/
def nonMarkupScalar : JsonValue → Bool
  | .str s => !strStartsWith s "md:"
  | .num _ => true
  | .bool _ => true
  | .null => true
  | _ => false

mutual
/-- Does the document contain, anywhere (root included), a string beginning with
the reserved marker "md:"? -/
def hasMdString : JsonValue → Bool
  | .str s => strStartsWith s "md:"
  | .arr xs => hasMdElems xs
  | .obj fields => hasMdFields fields
  | _ => false

/-- Marker search over a field list. -/
def hasMdFields : List (String × JsonValue) → Bool
  | [] => false
  | (_, x) :: rest => hasMdString x || hasMdFields rest

/-- Marker search over an element list. -/
def hasMdElems : List JsonValue → Bool
  | [] => false
  | x :: rest => hasMdString x || hasMdElems rest
end

mutual
/-- Does this value, processed as a field entry, contain an external markup
string whose referenced file is unreadable under `c`? -/
def badExternalEntry (c : PluginCtx) : JsonValue → Bool
  | .str s =>
    strStartsWith s "md:@" && (c.fsRead (pathJoin c.markdownDir (strDrop s 4))).isNone
  | .arr xs => badExternalElems c xs
  | .obj fields => badExternalFields c fields
  | _ => false

/-- Unreachable-external search over a field list. -/
def badExternalFields (c : PluginCtx) : List (String × JsonValue) → Bool
  | [] => false
  | (_, x) :: rest => badExternalEntry c x || badExternalFields c rest

/-- Unreachable-external search over an element list. -/
def badExternalElems (c : PluginCtx) : List JsonValue → Bool
  | [] => false
  | x :: rest => badExternalEntry c x || badExternalElems c rest
end

/-- Does the document contain a reachable external markup field whose file is
unreadable?  Mirrors the traversal's reach: a non-container root is never
examined. -/
def containsBadExternal (c : PluginCtx) (v : JsonValue) : Bool :=
  match v with
  | .obj _ => badExternalEntry c v
  | .arr _ => badExternalEntry c v
  | _ => false

mutual
/-- All positions of string leaves inside this value (the value itself counting
as position `[]` when it is a string), in traversal order. -/
def strPosEntry : JsonValue → List (List Nat)
  | .str _ => [[]]
  | .arr xs => strPosElems 0 xs
  | .obj fields => strPosFields 0 fields
  | _ => []

/-- String positions under a field list, the first field carrying index `i`. -/
def strPosFields (i : Nat) : List (String × JsonValue) → List (List Nat)
  | [] => []
  | (_, x) :: rest => (strPosEntry x).map (fun p => i :: p) ++ strPosFields (i + 1) rest

/-- String positions under an element list, the first element carrying index `i`. -/
def strPosElems (i : Nat) : List JsonValue → List (List Nat)
  | [] => []
  | x :: rest => (strPosEntry x).map (fun p => i :: p) ++ strPosElems (i + 1) rest
end

mutual
/-- `goEntry` instrumented with a visit log: the positions (relative to this
value) at which the `forEach` body examined a string field — the evaluation of
the classifying condition `typeof === "string" && startsWith("md:")`. -/
def logEntry (c : PluginCtx) : JsonValue → (JsonValue × Option FsError) × List (List Nat)
  | .str s =>
    if strStartsWith s "md:" then
      match handleMarkdownContent c s with
      | .ok w => ((.str w, none), [[]])
      | .error e => ((.str s, some e), [[]])
    else ((.str s, none), [[]])
  | .obj fields =>
    let r := logFields c 0 fields
    ((.obj r.1.1, r.1.2), r.2)
  | .arr xs =>
    let r := logElems c 0 xs
    ((.arr r.1.1, r.1.2), r.2)
  | v => ((v, none), [])

/-- `goFields` instrumented with a visit log; the error aborts the loop, so
fields after it are neither processed nor examined. -/
def logFields (c : PluginCtx) (i : Nat) :
    List (String × JsonValue) → ((List (String × JsonValue)) × Option FsError) × List (List Nat)
  | [] => (([], none), [])
  | (k, x) :: rest =>
    let r := logEntry c x
    let ps := r.2.map (fun p => i :: p)
    match r.1.2 with
    | some e => (((k, r.1.1) :: rest, some e), ps)
    | none =>
      let r2 := logFields c (i + 1) rest
      (((k, r.1.1) :: r2.1.1, r2.1.2), ps ++ r2.2)

/-- `goElems` instrumented with a visit log. -/
def logElems (c : PluginCtx) (i : Nat) :
    List JsonValue → ((List JsonValue) × Option FsError) × List (List Nat)
  | [] => (([], none), [])
  | x :: rest =>
    let r := logEntry c x
    let ps := r.2.map (fun p => i :: p)
    match r.1.2 with
    | some e => ((r.1.1 :: rest, some e), ps)
    | none =>
      let r2 := logElems c (i + 1) rest
      ((r.1.1 :: r2.1.1, r2.1.2), ps ++ r2.2)
end

/-- `traverseJsonNodes` instrumented with the visit log of string-field
examinations; a non-container root is never examined. -/
def traverseLog (c : PluginCtx) (v : JsonValue) :
    (JsonValue × Option FsError) × List (List Nat) :=
  match v with
  | .obj _ => logEntry c v
  | .arr _ => logEntry c v
  | _ => ((v, none), [])

/-- Structural induction for the nested `JsonValue` type, with membership-based
hypotheses for containers. -/
theorem JsonValue.inductionOn {motive : JsonValue → Prop}
    (hstr : ∀ s, motive (.str s)) (hnum : ∀ n, motive (.num n))
    (hbool : ∀ b, motive (.bool b)) (hnull : motive .null)
    (harr : ∀ xs, (∀ x ∈ xs, motive x) → motive (.arr xs))
    (hobj : ∀ fields, (∀ kx ∈ fields, motive kx.2) → motive (.obj fields)) :
    ∀ v, motive v
  | .str s => hstr s
  | .num n => hnum n
  | .bool b => hbool b
  | .null => hnull
  | .arr xs => harr xs (fun x hx =>
      JsonValue.inductionOn hstr hnum hbool hnull harr hobj x)
  | .obj fields => hobj fields (fun kx hkx =>
      JsonValue.inductionOn hstr hnum hbool hnull harr hobj kx.2)
termination_by v => sizeOf v
decreasing_by
  · have h := List.sizeOf_lt_of_mem hx
    simp only [JsonValue.arr.sizeOf_spec]
    omega
  · obtain ⟨k, x⟩ := kx
    have h := List.sizeOf_lt_of_mem hkx
    simp only [Prod.mk.sizeOf_spec] at h
    simp only [JsonValue.obj.sizeOf_spec]
    omega

/-- A string starting with the external marker also starts with the plain marker. -/
theorem strStartsWith_of_mdAt (s : String) (h : strStartsWith s "md:@" = true) :
    strStartsWith s "md:" = true := by
  rw [strStartsWith, List.isPrefixOf_iff_prefix] at h ⊢
  exact List.IsPrefix.trans ⟨['@'], rfl⟩ h

/-- Pointwise frame fact for the field loop, true on success and error runs
alike: every key keeps its key, and its value is either the processed value or
the untouched original. -/
theorem goFields_get_frame (c : PluginCtx) (fields : List (String × JsonValue)) :
    ∀ (i : Nat) (k : String) (x : JsonValue), fields[i]? = some (k, x) →
      ∃ y, (goFields c fields).1[i]? = some (k, y) ∧ (y = (goEntry c x).1 ∨ y = x) := by
  induction fields with
  | nil => intro i k x h; simp at h
  | cons kx rest ih =>
    obtain ⟨k0, x0⟩ := kx
    intro i k x h
    rcases hr : goEntry c x0 with ⟨x0', e⟩
    cases e with
    | some err =>
      cases i with
      | zero =>
        simp only [List.getElem?_cons_zero, Option.some.injEq, Prod.mk.injEq] at h
        obtain ⟨hk, hx2⟩ := h
        subst hk
        subst hx2
        exact ⟨x0', by simp [goFields, hr], Or.inl (by rw [hr])⟩
      | succ n =>
        simp only [List.getElem?_cons_succ] at h
        exact ⟨x, by simp [goFields, hr, h], Or.inr rfl⟩
    | none =>
      cases i with
      | zero =>
        simp only [List.getElem?_cons_zero, Option.some.injEq, Prod.mk.injEq] at h
        obtain ⟨hk, hx2⟩ := h
        subst hk
        subst hx2
        exact ⟨x0', by simp [goFields, hr], Or.inl (by rw [hr])⟩
      | succ n =>
        simp only [List.getElem?_cons_succ] at h
        obtain ⟨y, hy, hor⟩ := ih n k x h
        exact ⟨y, by simp [goFields, hr]; exact hy, hor⟩

/-- Pointwise frame fact for the element loop. -/
theorem goElems_get_frame (c : PluginCtx) (xs : List JsonValue) :
    ∀ (i : Nat) (x : JsonValue), xs[i]? = some x →
      ∃ y, (goElems c xs).1[i]? = some y ∧ (y = (goEntry c x).1 ∨ y = x) := by
  induction xs with
  | nil => intro i x h; simp at h
  | cons x0 rest ih =>
    intro i x h
    rcases hr : goEntry c x0 with ⟨x0', e⟩
    cases e with
    | some err =>
      cases i with
      | zero =>
        simp only [List.getElem?_cons_zero, Option.some.injEq] at h
        subst h
        exact ⟨x0', by simp [goElems, hr], Or.inl (by rw [hr])⟩
      | succ n =>
        simp only [List.getElem?_cons_succ] at h
        exact ⟨x, by simp [goElems, hr, h], Or.inr rfl⟩
    | none =>
      cases i with
      | zero =>
        simp only [List.getElem?_cons_zero, Option.some.injEq] at h
        subst h
        exact ⟨x0', by simp [goElems, hr], Or.inl (by rw [hr])⟩
      | succ n =>
        simp only [List.getElem?_cons_succ] at h
        obtain ⟨y, hy, hor⟩ := ih n x h
        exact ⟨y, by simp [goElems, hr]; exact hy, hor⟩

/-- Non-markup scalars (numbers, booleans, null, strings without the marker)
are never altered, at any position, whether or not the traversal errors out. -/
theorem goEntry_frame (c : PluginCtx) (v : JsonValue) :
    ∀ (p : List Nat) (x : JsonValue), valueAt v p = some x → nonMarkupScalar x = true →
      valueAt (goEntry c v).1 p = some x := by
  induction v using JsonValue.inductionOn with
  | hstr s =>
    intro p x hp hx
    cases p with
    | nil =>
      simp only [valueAt, Option.some.injEq] at hp
      subst hp
      simp only [nonMarkupScalar, Bool.not_eq_true'] at hx
      simp [goEntry, hx, valueAt]
    | cons i p' => simp [valueAt] at hp
  | hnum n => intro p x hp _; cases p <;> simpa [goEntry, valueAt] using hp
  | hbool b => intro p x hp _; cases p <;> simpa [goEntry, valueAt] using hp
  | hnull => intro p x hp _; cases p <;> simpa [goEntry, valueAt] using hp
  | harr xs ih =>
    intro p x hp hx
    cases p with
    | nil =>
      simp only [valueAt, Option.some.injEq] at hp
      subst hp
      simp [nonMarkupScalar] at hx
    | cons i p' =>
      simp only [valueAt] at hp
      rcases hg : xs[i]? with _ | x0
      · rw [hg] at hp; simp at hp
      rw [hg] at hp
      obtain ⟨y, hy, hor⟩ := goElems_get_frame c xs i x0 hg
      have hmem : x0 ∈ xs := (List.mem_iff_getElem?).mpr ⟨i, hg⟩
      simp only [goEntry, valueAt, hy]
      cases hor with
      | inl h1 => rw [h1]; exact ih x0 hmem p' x hp hx
      | inr h2 => rw [h2]; exact hp
  | hobj fields ih =>
    intro p x hp hx
    cases p with
    | nil =>
      simp only [valueAt, Option.some.injEq] at hp
      subst hp
      simp [nonMarkupScalar] at hx
    | cons i p' =>
      simp only [valueAt] at hp
      rcases hg : fields[i]? with _ | kx
      · rw [hg] at hp; simp at hp
      obtain ⟨k0, x0⟩ := kx
      rw [hg] at hp
      obtain ⟨y, hy, hor⟩ := goFields_get_frame c fields i k0 x0 hg
      have hmem : (k0, x0) ∈ fields := (List.mem_iff_getElem?).mpr ⟨i, hg⟩
      simp only [goEntry, valueAt, hy]
      cases hor with
      | inl h1 => rw [h1]; exact ih (k0, x0) hmem p' x hp hx
      | inr h2 => rw [h2]; exact hp

/-- The element loop preserves the document shape (structure, keys, lengths and
non-string scalars), assuming each member entry does. -/
theorem skeletonElems_goElems (c : PluginCtx) (xs : List JsonValue)
    (IH : ∀ x ∈ xs, skeleton (goEntry c x).1 = skeleton x) :
    skeletonElems (goElems c xs).1 = skeletonElems xs := by
  induction xs with
  | nil => simp [goElems]
  | cons x rest ih =>
    rcases hr : goEntry c x with ⟨x', e⟩
    have hx' : skeleton x' = skeleton x := by
      have hm := IH x (by simp)
      rw [hr] at hm
      exact hm
    cases e with
    | some err => simp [goElems, hr, skeletonElems, hx']
    | none =>
      have hrest := ih (fun y hy => IH y (List.mem_cons_of_mem _ hy))
      simp [goElems, hr, skeletonElems, hx', hrest]

/-- The field loop preserves the document shape, assuming each member entry does. -/
theorem skeletonFields_goFields (c : PluginCtx) (fields : List (String × JsonValue))
    (IH : ∀ kx ∈ fields, skeleton (goEntry c kx.2).1 = skeleton kx.2) :
    skeletonFields (goFields c fields).1 = skeletonFields fields := by
  induction fields with
  | nil => simp [goFields]
  | cons kx rest ih =>
    obtain ⟨k0, x0⟩ := kx
    rcases hr : goEntry c x0 with ⟨x0', e⟩
    have hx' : skeleton x0' = skeleton x0 := by
      have hm := IH (k0, x0) (by simp)
      rw [hr] at hm
      exact hm
    cases e with
    | some err => simp [goFields, hr, skeletonFields, hx']
    | none =>
      have hrest := ih (fun y hy => IH y (List.mem_cons_of_mem _ hy))
      simp [goFields, hr, skeletonFields, hx', hrest]

/-- Processing an entry never changes the document's shape: containers keep
their keys, lengths and order, strings stay strings, other scalars stay put —
whether or not the traversal errors out. -/
theorem skeleton_goEntry (c : PluginCtx) (v : JsonValue) :
    skeleton (goEntry c v).1 = skeleton v := by
  induction v using JsonValue.inductionOn with
  | hstr s =>
    cases hs : strStartsWith s "md:" with
    | false => simp [goEntry, hs]
    | true =>
      cases hh : handleMarkdownContent c s with
      | ok w => simp [goEntry, hs, hh, skeleton]
      | error e => simp [goEntry, hs, hh]
  | hnum n => simp [goEntry]
  | hbool b => simp [goEntry]
  | hnull => simp [goEntry]
  | harr xs ih => simp [goEntry, skeleton, skeletonElems_goElems c xs ih]
  | hobj fields ih => simp [goEntry, skeleton, skeletonFields_goFields c fields ih]

/-- A marker-free element list is returned unchanged and without error,
assuming each member entry is. -/
theorem goElems_noMd (c : PluginCtx) (xs : List JsonValue)
    (IH : ∀ x ∈ xs, hasMdString x = false → goEntry c x = (x, none))
    (h : hasMdElems xs = false) : goElems c xs = (xs, none) := by
  induction xs with
  | nil => simp [goElems]
  | cons x rest ih =>
    rw [hasMdElems, Bool.or_eq_false_iff] at h
    have hx := IH x (by simp) h.1
    have hrest := ih (fun y hy => IH y (List.mem_cons_of_mem _ hy)) h.2
    simp [goElems, hx, hrest]

/-- A marker-free field list is returned unchanged and without error, assuming
each member entry is. -/
theorem goFields_noMd (c : PluginCtx) (fields : List (String × JsonValue))
    (IH : ∀ kx ∈ fields, hasMdString kx.2 = false → goEntry c kx.2 = (kx.2, none))
    (h : hasMdFields fields = false) : goFields c fields = (fields, none) := by
  induction fields with
  | nil => simp [goFields]
  | cons kx rest ih =>
    obtain ⟨k0, x0⟩ := kx
    rw [hasMdFields, Bool.or_eq_false_iff] at h
    have hx := IH (k0, x0) (by simp) h.1
    have hrest := ih (fun y hy => IH y (List.mem_cons_of_mem _ hy)) h.2
    simp [goFields, hx, hrest]

/-- A value containing no marker-bearing string is processed to itself, with no
error. -/
theorem goEntry_noMd (c : PluginCtx) (v : JsonValue) (h : hasMdString v = false) :
    goEntry c v = (v, none) := by
  induction v using JsonValue.inductionOn with
  | hstr s => rw [hasMdString] at h; simp [goEntry, h]
  | hnum n => simp [goEntry]
  | hbool b => simp [goEntry]
  | hnull => simp [goEntry]
  | harr xs ih =>
    rw [hasMdString] at h
    simp [goEntry, goElems_noMd c xs ih h]
  | hobj fields ih =>
    rw [hasMdString] at h
    simp [goEntry, goFields_noMd c fields ih h]

/-- On a successful run, every field of the list is processed: the output holds
exactly the entry-processed value at each index, and each entry succeeded. -/
theorem goFields_none_get (c : PluginCtx) (fields : List (String × JsonValue))
    (h : (goFields c fields).2 = none) :
    ∀ (i : Nat) (k : String) (x : JsonValue), fields[i]? = some (k, x) →
      (goFields c fields).1[i]? = some (k, (goEntry c x).1) ∧ (goEntry c x).2 = none := by
  induction fields with
  | nil => intro i k x hg; simp at hg
  | cons kx rest ih =>
    obtain ⟨k0, x0⟩ := kx
    rcases hr : goEntry c x0 with ⟨x0', e⟩
    cases e with
    | some err => rw [goFields] at h; simp [hr] at h
    | none =>
      rw [goFields] at h
      simp only [hr] at h
      intro i k x hg
      cases i with
      | zero =>
        simp only [List.getElem?_cons_zero, Option.some.injEq, Prod.mk.injEq] at hg
        obtain ⟨hk, hx2⟩ := hg
        subst hk
        subst hx2
        constructor
        · simp [goFields, hr]
        · rw [hr]
      | succ n =>
        simp only [List.getElem?_cons_succ] at hg
        obtain ⟨h1, h2⟩ := ih h n k x hg
        exact ⟨by simp [goFields, hr]; exact h1, h2⟩

/-- On a successful run, every element of the list is processed likewise. -/
theorem goElems_none_get (c : PluginCtx) (xs : List JsonValue)
    (h : (goElems c xs).2 = none) :
    ∀ (i : Nat) (x : JsonValue), xs[i]? = some x →
      (goElems c xs).1[i]? = some (goEntry c x).1 ∧ (goEntry c x).2 = none := by
  induction xs with
  | nil => intro i x hg; simp at hg
  | cons x0 rest ih =>
    rcases hr : goEntry c x0 with ⟨x0', e⟩
    cases e with
    | some err => rw [goElems] at h; simp [hr] at h
    | none =>
      rw [goElems] at h
      simp only [hr] at h
      intro i x hg
      cases i with
      | zero =>
        simp only [List.getElem?_cons_zero, Option.some.injEq] at hg
        subst hg
        constructor
        · simp [goElems, hr]
        · rw [hr]
      | succ n =>
        simp only [List.getElem?_cons_succ] at hg
        obtain ⟨h1, h2⟩ := ih h n x hg
        exact ⟨by simp [goElems, hr]; exact h1, h2⟩

/-- On a successful run, every string field of the document is replaced by
exactly what the entry step makes of that string alone (rendered replacement for
marker strings, the identity for the rest), and that step succeeded. -/
theorem goEntry_success_str (c : PluginCtx) (v : JsonValue)
    (h : (goEntry c v).2 = none) :
    ∀ (p : List Nat) (s : String), valueAt v p = some (.str s) →
      ∃ w, goEntry c (.str s) = (.str w, none) ∧
        valueAt (goEntry c v).1 p = some (.str w) := by
  induction v using JsonValue.inductionOn with
  | hstr s0 =>
    intro p s hp
    cases p with
    | nil =>
      simp only [valueAt, Option.some.injEq, JsonValue.str.injEq] at hp
      subst hp
      cases hs : strStartsWith s0 "md:" with
      | false =>
        refine ⟨s0, by simp [goEntry, hs], ?_⟩
        simp [goEntry, hs, valueAt]
      | true =>
        cases hh : handleMarkdownContent c s0 with
        | ok w =>
          refine ⟨w, by simp [goEntry, hs, hh], ?_⟩
          simp [goEntry, hs, hh, valueAt]
        | error e => simp [goEntry, hs, hh] at h
    | cons i p' => simp [valueAt] at hp
  | hnum n => intro p s hp; cases p <;> simp [valueAt] at hp
  | hbool b => intro p s hp; cases p <;> simp [valueAt] at hp
  | hnull => intro p s hp; cases p <;> simp [valueAt] at hp
  | harr xs ih =>
    have hel : (goElems c xs).2 = none := by
      rw [goEntry] at h
      exact h
    intro p s hp
    cases p with
    | nil => simp [valueAt] at hp
    | cons i p' =>
      simp only [valueAt] at hp
      rcases hg : xs[i]? with _ | x0
      · rw [hg] at hp; simp at hp
      rw [hg] at hp
      obtain ⟨h1, h2⟩ := goElems_none_get c xs hel i x0 hg
      have hmem : x0 ∈ xs := (List.mem_iff_getElem?).mpr ⟨i, hg⟩
      obtain ⟨w, hw, hv⟩ := ih x0 hmem h2 p' s hp
      exact ⟨w, hw, by simp only [goEntry, valueAt, h1]; exact hv⟩
  | hobj fields ih =>
    have hfl : (goFields c fields).2 = none := by
      rw [goEntry] at h
      exact h
    intro p s hp
    cases p with
    | nil => simp [valueAt] at hp
    | cons i p' =>
      simp only [valueAt] at hp
      rcases hg : fields[i]? with _ | kx
      · rw [hg] at hp; simp at hp
      obtain ⟨k0, x0⟩ := kx
      rw [hg] at hp
      obtain ⟨h1, h2⟩ := goFields_none_get c fields hfl i k0 x0 hg
      have hmem : (k0, x0) ∈ fields := (List.mem_iff_getElem?).mpr ⟨i, hg⟩
      obtain ⟨w, hw, hv⟩ := ih (k0, x0) hmem h2 p' s hp
      exact ⟨w, hw, by simp only [goEntry, valueAt, h1]; exact hv⟩

/-- The element loop errors exactly when some element contains an unreachable
external reference, assuming the same for each member entry. -/
theorem goElems_err_any (c : PluginCtx) (xs : List JsonValue)
    (IH : ∀ x ∈ xs, ((goEntry c x).2).isSome = badExternalEntry c x) :
    ((goElems c xs).2).isSome = badExternalElems c xs := by
  induction xs with
  | nil => simp [goElems, badExternalElems]
  | cons x rest ih =>
    have hx := IH x (by simp)
    have hrest := ih (fun y hy => IH y (List.mem_cons_of_mem _ hy))
    rcases hr : goEntry c x with ⟨x', e⟩
    rw [hr] at hx
    cases e with
    | some err =>
      simp only [Option.isSome_some] at hx
      simp [goElems, hr, badExternalElems, ← hx]
    | none =>
      simp only [Option.isSome_none] at hx
      simp [goElems, hr, badExternalElems, ← hx, hrest]

/-- The field loop errors exactly when some field contains an unreachable
external reference, assuming the same for each member entry. -/
theorem goFields_err_any (c : PluginCtx) (fields : List (String × JsonValue))
    (IH : ∀ kx ∈ fields, ((goEntry c kx.2).2).isSome = badExternalEntry c kx.2) :
    ((goFields c fields).2).isSome = badExternalFields c fields := by
  induction fields with
  | nil => simp [goFields, badExternalFields]
  | cons kx rest ih =>
    obtain ⟨k0, x0⟩ := kx
    have hx := IH (k0, x0) (by simp)
    have hrest := ih (fun y hy => IH y (List.mem_cons_of_mem _ hy))
    rcases hr : goEntry c x0 with ⟨x0', e⟩
    rw [hr] at hx
    cases e with
    | some err =>
      simp only [Option.isSome_some] at hx
      simp [goFields, hr, badExternalFields, ← hx]
    | none =>
      simp only [Option.isSome_none] at hx
      simp [goFields, hr, badExternalFields, ← hx, hrest]

/-- Processing an entry throws exactly when the entry contains an external
markup string whose referenced file is unreadable. -/
theorem goEntry_err (c : PluginCtx) (v : JsonValue) :
    ((goEntry c v).2).isSome = badExternalEntry c v := by
  induction v using JsonValue.inductionOn with
  | hstr s =>
    cases hs : strStartsWith s "md:" with
    | false =>
      have hq : strStartsWith s "md:@" = false := by
        cases hq : strStartsWith s "md:@" with
        | false => rfl
        | true => rw [strStartsWith_of_mdAt s hq] at hs; exact absurd hs (by simp)
      simp [goEntry, hs, badExternalEntry, hq]
    | true =>
      cases hq : strStartsWith s "md:@" with
      | false =>
        simp [goEntry, hs, handleMarkdownContent, hq, badExternalEntry]
      | true =>
        rcases hfs : c.fsRead (pathJoin c.markdownDir (strDrop s 4)) with _ | t
        · simp [goEntry, hs, handleMarkdownContent, hq, hfs, badExternalEntry]
        · simp [goEntry, hs, handleMarkdownContent, hq, hfs, badExternalEntry]
  | hnum n => simp [goEntry, badExternalEntry]
  | hbool b => simp [goEntry, badExternalEntry]
  | hnull => simp [goEntry, badExternalEntry]
  | harr xs ih =>
    rw [badExternalEntry]
    rw [← goElems_err_any c xs ih]
    rfl
  | hobj fields ih =>
    rw [badExternalEntry]
    rw [← goFields_err_any c fields ih]
    rfl

/-- An error surfacing from the field loop is the error of some entry. -/
theorem goFields_some (c : PluginCtx) (fields : List (String × JsonValue)) (e : FsError)
    (h : (goFields c fields).2 = some e) :
    ∃ (i : Nat) (k : String) (x : JsonValue),
      fields[i]? = some (k, x) ∧ (goEntry c x).2 = some e := by
  induction fields with
  | nil => rw [goFields] at h; simp at h
  | cons kx rest ih =>
    obtain ⟨k0, x0⟩ := kx
    rcases hr : goEntry c x0 with ⟨x0', e0⟩
    cases e0 with
    | some err =>
      rw [goFields] at h
      simp only [hr, Option.some.injEq] at h
      subst h
      exact ⟨0, k0, x0, by simp, by rw [hr]⟩
    | none =>
      rw [goFields] at h
      simp only [hr] at h
      obtain ⟨i, k, x, h1, h2⟩ := ih h
      exact ⟨i + 1, k, x, by simpa using h1, h2⟩

/-- An error surfacing from the element loop is the error of some element. -/
theorem goElems_some (c : PluginCtx) (xs : List JsonValue) (e : FsError)
    (h : (goElems c xs).2 = some e) :
    ∃ (i : Nat) (x : JsonValue), xs[i]? = some x ∧ (goEntry c x).2 = some e := by
  induction xs with
  | nil => rw [goElems] at h; simp at h
  | cons x0 rest ih =>
    rcases hr : goEntry c x0 with ⟨x0', e0⟩
    cases e0 with
    | some err =>
      rw [goElems] at h
      simp only [hr, Option.some.injEq] at h
      subst h
      exact ⟨0, x0, by simp, by rw [hr]⟩
    | none =>
      rw [goElems] at h
      simp only [hr] at h
      obtain ⟨i, x, h1, h2⟩ := ih h
      exact ⟨i + 1, x, by simpa using h1, h2⟩

/-- The error thrown by an entry names exactly the joined path of some external
markup string inside the entry whose file was unreadable. -/
theorem goEntry_some_err (c : PluginCtx) (v : JsonValue) (e : FsError)
    (h : (goEntry c v).2 = some e) :
    ∃ p s, valueAt v p = some (.str s) ∧ strStartsWith s "md:@" = true ∧
      c.fsRead (pathJoin c.markdownDir (strDrop s 4)) = none ∧
      e = .enoent (pathJoin c.markdownDir (strDrop s 4)) := by
  induction v using JsonValue.inductionOn with
  | hstr s =>
    cases hs : strStartsWith s "md:" with
    | false => simp [goEntry, hs] at h
    | true =>
      cases hh : handleMarkdownContent c s with
      | ok w => simp [goEntry, hs, hh] at h
      | error e0 =>
        rw [goEntry] at h
        simp only [hs, if_true, hh, Option.some.injEq] at h
        subst h
        rw [handleMarkdownContent] at hh
        cases hq : strStartsWith s "md:@" with
        | false => simp [hq] at hh
        | true =>
          rcases hfs : c.fsRead (pathJoin c.markdownDir (strDrop s 4)) with _ | t
          · simp only [hq, if_true, hfs, Except.error.injEq] at hh
            exact ⟨[], s, by simp [valueAt], hq, hfs, hh.symm⟩
          · simp [hq, hfs] at hh
  | hnum n => simp [goEntry] at h
  | hbool b => simp [goEntry] at h
  | hnull => simp [goEntry] at h
  | harr xs ih =>
    have hel : (goElems c xs).2 = some e := by rw [goEntry] at h; exact h
    obtain ⟨i, x0, hg, he⟩ := goElems_some c xs e hel
    have hmem : x0 ∈ xs := (List.mem_iff_getElem?).mpr ⟨i, hg⟩
    obtain ⟨p, s, h1, h2, h3, h4⟩ := ih x0 hmem he
    exact ⟨i :: p, s, by simp [valueAt, hg]; exact h1, h2, h3, h4⟩
  | hobj fields ih =>
    have hfl : (goFields c fields).2 = some e := by rw [goEntry] at h; exact h
    obtain ⟨i, k0, x0, hg, he⟩ := goFields_some c fields e hfl
    have hmem : (k0, x0) ∈ fields := (List.mem_iff_getElem?).mpr ⟨i, hg⟩
    obtain ⟨p, s, h1, h2, h3, h4⟩ := ih (k0, x0) hmem he
    exact ⟨i :: p, s, by simp [valueAt, hg]; exact h1, h2, h3, h4⟩

/-- The instrumented element loop computes the same state and error as the
plain one, assuming the same of each member entry. -/
theorem logElems_fst (c : PluginCtx) (xs : List JsonValue)
    (IH : ∀ x ∈ xs, (logEntry c x).1 = goEntry c x) :
    ∀ i, (logElems c i xs).1 = goElems c xs := by
  induction xs with
  | nil => intro i; simp [logElems, goElems]
  | cons x rest ih =>
    intro i
    have hx := IH x (by simp)
    have hrest := ih (fun y hy => IH y (List.mem_cons_of_mem _ hy))
    rcases hle : logEntry c x with ⟨⟨x', e⟩, lg⟩
    rw [hle] at hx
    have hge : goEntry c x = (x', e) := hx.symm
    cases e with
    | some err => simp [logElems, goElems, hle, hge]
    | none => simp [logElems, goElems, hle, hge, hrest (i + 1)]

/-- The instrumented field loop computes the same state and error as the plain
one, assuming the same of each member entry. -/
theorem logFields_fst (c : PluginCtx) (fields : List (String × JsonValue))
    (IH : ∀ kx ∈ fields, (logEntry c kx.2).1 = goEntry c kx.2) :
    ∀ i, (logFields c i fields).1 = goFields c fields := by
  induction fields with
  | nil => intro i; simp [logFields, goFields]
  | cons kx rest ih =>
    obtain ⟨k0, x0⟩ := kx
    intro i
    have hx := IH (k0, x0) (by simp)
    have hrest := ih (fun y hy => IH y (List.mem_cons_of_mem _ hy))
    rcases hle : logEntry c x0 with ⟨⟨x0', e⟩, lg⟩
    rw [hle] at hx
    have hge : goEntry c x0 = (x0', e) := hx.symm
    cases e with
    | some err => simp [logFields, goFields, hle, hge]
    | none => simp [logFields, goFields, hle, hge, hrest (i + 1)]

/-- The instrumented entry step computes the same state and error as the plain
entry step. -/
theorem logEntry_fst (c : PluginCtx) (v : JsonValue) :
    (logEntry c v).1 = goEntry c v := by
  induction v using JsonValue.inductionOn with
  | hstr s =>
    cases hs : strStartsWith s "md:" with
    | false => simp [logEntry, goEntry, hs]
    | true =>
      cases hh : handleMarkdownContent c s with
      | ok w => simp [logEntry, goEntry, hs, hh]
      | error e => simp [logEntry, goEntry, hs, hh]
  | hnum n => simp [logEntry, goEntry]
  | hbool b => simp [logEntry, goEntry]
  | hnull => simp [logEntry, goEntry]
  | harr xs ih => simp [logEntry, goEntry, logElems_fst c xs ih 0]
  | hobj fields ih => simp [logEntry, goEntry, logFields_fst c fields ih 0]

/-- On a successful run the element loop's visit log is exactly the list of
string positions under it, assuming the same of each member entry. -/
theorem logElems_log (c : PluginCtx) (xs : List JsonValue)
    (IH : ∀ x ∈ xs, (goEntry c x).2 = none → (logEntry c x).2 = strPosEntry x) :
    ∀ i, (goElems c xs).2 = none → (logElems c i xs).2 = strPosElems i xs := by
  induction xs with
  | nil => intro i _; simp [logElems, strPosElems]
  | cons x rest ih =>
    intro i h
    rcases hge : goEntry c x with ⟨x', e⟩
    cases e with
    | some err => rw [goElems] at h; simp [hge] at h
    | none =>
      rw [goElems] at h
      simp only [hge] at h
      have hlog := IH x (by simp) (by rw [hge])
      have hrest := ih (fun y hy => IH y (List.mem_cons_of_mem _ hy)) (i + 1) h
      rcases hle : logEntry c x with ⟨⟨x'', e''⟩, lg⟩
      have hfst := logEntry_fst c x
      rw [hle, hge] at hfst
      have he'' : e'' = none := by
        have := congrArg Prod.snd hfst
        simpa using this
      rw [hle] at hlog
      simp only at hlog
      subst he''
      simp [logElems, hle, strPosElems, hlog, hrest]

/-- On a successful run the field loop's visit log is exactly the list of
string positions under it, assuming the same of each member entry. -/
theorem logFields_log (c : PluginCtx) (fields : List (String × JsonValue))
    (IH : ∀ kx ∈ fields, (goEntry c kx.2).2 = none → (logEntry c kx.2).2 = strPosEntry kx.2) :
    ∀ i, (goFields c fields).2 = none → (logFields c i fields).2 = strPosFields i fields := by
  induction fields with
  | nil => intro i _; simp [logFields, strPosFields]
  | cons kx rest ih =>
    obtain ⟨k0, x0⟩ := kx
    intro i h
    rcases hge : goEntry c x0 with ⟨x0', e⟩
    cases e with
    | some err => rw [goFields] at h; simp [hge] at h
    | none =>
      rw [goFields] at h
      simp only [hge] at h
      have hlog := IH (k0, x0) (by simp) (by rw [hge])
      have hrest := ih (fun y hy => IH y (List.mem_cons_of_mem _ hy)) (i + 1) h
      rcases hle : logEntry c x0 with ⟨⟨x0'', e''⟩, lg⟩
      have hfst := logEntry_fst c x0
      rw [hle, hge] at hfst
      have he'' : e'' = none := by
        have := congrArg Prod.snd hfst
        simpa using this
      rw [hle] at hlog
      simp only at hlog
      subst he''
      simp [logFields, hle, strPosFields, hlog, hrest]

/-- On a successful run the entry step's visit log is exactly the list of
string positions inside the value. -/
theorem logEntry_log (c : PluginCtx) (v : JsonValue) (h : (goEntry c v).2 = none) :
    (logEntry c v).2 = strPosEntry v := by
  induction v using JsonValue.inductionOn with
  | hstr s =>
    cases hs : strStartsWith s "md:" with
    | false => simp [logEntry, hs, strPosEntry]
    | true =>
      cases hh : handleMarkdownContent c s with
      | ok w => simp [logEntry, hs, hh, strPosEntry]
      | error e => simp [logEntry, hs, hh, strPosEntry]
  | hnum n => simp [logEntry, strPosEntry]
  | hbool b => simp [logEntry, strPosEntry]
  | hnull => simp [logEntry, strPosEntry]
  | harr xs ih =>
    have hel : (goElems c xs).2 = none := by rw [goEntry] at h; exact h
    simp [logEntry, strPosEntry, logElems_log c xs ih 0 hel]
  | hobj fields ih =>
    have hfl : (goFields c fields).2 = none := by rw [goEntry] at h; exact h
    simp [logEntry, strPosEntry, logFields_log c fields ih 0 hfl]

/-- Membership in the string positions of an element list: a position is an
index shifted by the base, followed by a string position inside that element. -/
theorem strPosElems_mem (xs : List JsonValue) :
    ∀ (i : Nat) (p : List Nat), p ∈ strPosElems i xs ↔
      ∃ (j : Nat) (x : JsonValue) (p' : List Nat),
        xs[j]? = some x ∧ p = (i + j) :: p' ∧ p' ∈ strPosEntry x := by
  induction xs with
  | nil => intro i p; simp [strPosElems]
  | cons x rest ih =>
    intro i p
    rw [strPosElems, List.mem_append, List.mem_map]
    constructor
    · rintro (⟨q, hq, rfl⟩ | hrest)
      · exact ⟨0, x, q, by simp, by simp, hq⟩
      · obtain ⟨j, x', p', h1, h2, h3⟩ := (ih (i + 1) p).mp hrest
        refine ⟨j + 1, x', p', by simpa using h1, ?_, h3⟩
        rw [h2]
        congr 1
        omega
    · rintro ⟨j, x', p', h1, h2, h3⟩
      cases j with
      | zero =>
        simp only [List.getElem?_cons_zero, Option.some.injEq] at h1
        subst h1
        exact Or.inl ⟨p', h3, by simp [h2]⟩
      | succ n =>
        simp only [List.getElem?_cons_succ] at h1
        refine Or.inr ((ih (i + 1) p).mpr ⟨n, x', p', h1, ?_, h3⟩)
        rw [h2]
        congr 1
        omega

/-- The root position selects the value itself. -/
theorem valueAt_nil (v : JsonValue) : valueAt v [] = some v := by
  cases v <;> rfl

/-- No position descends into a number leaf. -/
theorem valueAt_num_cons (n : Int) (i : Nat) (p : List Nat) :
    valueAt (.num n) (i :: p) = none := rfl

/-- No position descends into a boolean leaf. -/
theorem valueAt_bool_cons (b : Bool) (i : Nat) (p : List Nat) :
    valueAt (.bool b) (i :: p) = none := rfl

/-- No position descends into a null leaf. -/
theorem valueAt_null_cons (i : Nat) (p : List Nat) :
    valueAt .null (i :: p) = none := rfl

/-- No position descends into a string leaf: strings are never containers. -/
theorem valueAt_str_cons (s : String) (i : Nat) (p : List Nat) :
    valueAt (.str s) (i :: p) = none := rfl

/-- Membership in the string positions of a field list. -/
theorem strPosFields_mem (fields : List (String × JsonValue)) :
    ∀ (i : Nat) (p : List Nat), p ∈ strPosFields i fields ↔
      ∃ (j : Nat) (k : String) (x : JsonValue) (p' : List Nat),
        fields[j]? = some (k, x) ∧ p = (i + j) :: p' ∧ p' ∈ strPosEntry x := by
  induction fields with
  | nil => intro i p; simp [strPosFields]
  | cons kx rest ih =>
    obtain ⟨k0, x0⟩ := kx
    intro i p
    rw [strPosFields, List.mem_append, List.mem_map]
    constructor
    · rintro (⟨q, hq, rfl⟩ | hrest)
      · exact ⟨0, k0, x0, q, by simp, by simp, hq⟩
      · obtain ⟨j, k, x', p', h1, h2, h3⟩ := (ih (i + 1) p).mp hrest
        refine ⟨j + 1, k, x', p', by simpa using h1, ?_, h3⟩
        rw [h2]
        congr 1
        omega
    · rintro ⟨j, k, x', p', h1, h2, h3⟩
      cases j with
      | zero =>
        simp only [List.getElem?_cons_zero, Option.some.injEq, Prod.mk.injEq] at h1
        obtain ⟨hk, hx⟩ := h1
        subst hx
        exact Or.inl ⟨p', h3, by simp [h2]⟩
      | succ n =>
        simp only [List.getElem?_cons_succ] at h1
        refine Or.inr ((ih (i + 1) p).mpr ⟨n, k, x', p', h1, ?_, h3⟩)
        rw [h2]
        congr 1
        omega

/-- A position lies among a value's string positions exactly when a string leaf
sits at that position. -/
theorem strPosEntry_mem (v : JsonValue) :
    ∀ p : List Nat, p ∈ strPosEntry v ↔ ∃ s, valueAt v p = some (.str s) := by
  induction v using JsonValue.inductionOn with
  | hstr s =>
    intro p
    rw [strPosEntry]
    constructor
    · intro hp
      simp only [List.mem_singleton] at hp
      subst hp
      exact ⟨s, rfl⟩
    · rintro ⟨t, ht⟩
      cases p with
      | nil => simp
      | cons i p' => simp [valueAt] at ht
  | hnum n =>
    intro p
    constructor
    · intro hp
      exact absurd hp (by simp [strPosEntry])
    · rintro ⟨t, ht⟩
      cases p with
      | nil =>
        rw [valueAt_nil] at ht
        injection ht with h
        exact JsonValue.noConfusion h
      | cons i q =>
        rw [valueAt_num_cons n i q] at ht
        exact Option.noConfusion ht
  | hbool b =>
    intro p
    constructor
    · intro hp
      exact absurd hp (by simp [strPosEntry])
    · rintro ⟨t, ht⟩
      cases p with
      | nil =>
        rw [valueAt_nil] at ht
        injection ht with h
        exact JsonValue.noConfusion h
      | cons i q =>
        rw [valueAt_bool_cons b i q] at ht
        exact Option.noConfusion ht
  | hnull =>
    intro p
    constructor
    · intro hp
      exact absurd hp (by simp [strPosEntry])
    · rintro ⟨t, ht⟩
      cases p with
      | nil =>
        rw [valueAt_nil] at ht
        injection ht with h
        exact JsonValue.noConfusion h
      | cons i q =>
        rw [valueAt_null_cons i q] at ht
        exact Option.noConfusion ht
  | harr xs ih =>
    intro p
    rw [strPosEntry, strPosElems_mem]
    constructor
    · rintro ⟨j, x, p', h1, h2, h3⟩
      have hmem : x ∈ xs := (List.mem_iff_getElem?).mpr ⟨j, h1⟩
      obtain ⟨s, hs⟩ := (ih x hmem p').mp h3
      refine ⟨s, ?_⟩
      rw [h2]
      simp [valueAt, h1]
      exact hs
    · rintro ⟨s, hs⟩
      cases p with
      | nil => simp [valueAt] at hs
      | cons i p' =>
        simp only [valueAt] at hs
        rcases hg : xs[i]? with _ | x
        · rw [hg] at hs; simp at hs
        rw [hg] at hs
        have hmem : x ∈ xs := (List.mem_iff_getElem?).mpr ⟨i, hg⟩
        exact ⟨i, x, p', hg, by simp, (ih x hmem p').mpr ⟨s, hs⟩⟩
  | hobj fields ih =>
    intro p
    rw [strPosEntry, strPosFields_mem]
    constructor
    · rintro ⟨j, k, x, p', h1, h2, h3⟩
      have hmem : (k, x) ∈ fields := (List.mem_iff_getElem?).mpr ⟨j, h1⟩
      obtain ⟨s, hs⟩ := (ih (k, x) hmem p').mp h3
      refine ⟨s, ?_⟩
      rw [h2]
      simp [valueAt, h1]
      exact hs
    · rintro ⟨s, hs⟩
      cases p with
      | nil => simp [valueAt] at hs
      | cons i p' =>
        simp only [valueAt] at hs
        rcases hg : fields[i]? with _ | kx
        · rw [hg] at hs; simp at hs
        obtain ⟨k, x⟩ := kx
        rw [hg] at hs
        have hmem : (k, x) ∈ fields := (List.mem_iff_getElem?).mpr ⟨i, hg⟩
        exact ⟨i, k, x, p', hg, by simp, (ih (k, x) hmem p').mpr ⟨s, hs⟩⟩

/-- String positions of an element list contain no duplicates, assuming the
same inside each element. -/
theorem strPosElems_nodup (xs : List JsonValue)
    (IH : ∀ x ∈ xs, (strPosEntry x).Nodup) :
    ∀ i, (strPosElems i xs).Nodup := by
  induction xs with
  | nil => intro i; simp [strPosElems]
  | cons x rest ih =>
    intro i
    rw [strPosElems]
    refine List.Nodup.append ?_ (ih (fun y hy => IH y (List.mem_cons_of_mem _ hy)) (i + 1)) ?_
    · exact (IH x (by simp)).map (fun a b hab => by simpa using hab)
    · intro p hp hp'
      obtain ⟨q, _, rfl⟩ := List.mem_map.mp hp
      obtain ⟨j, x', p', _, h2, _⟩ := (strPosElems_mem rest (i + 1) _).mp hp'
      have : i = i + 1 + j := by
        have := congrArg (fun l => l.headI) h2
        simpa using this
      omega

/-- String positions of a field list contain no duplicates, assuming the same
inside each field value. -/
theorem strPosFields_nodup (fields : List (String × JsonValue))
    (IH : ∀ kx ∈ fields, (strPosEntry kx.2).Nodup) :
    ∀ i, (strPosFields i fields).Nodup := by
  induction fields with
  | nil => intro i; simp [strPosFields]
  | cons kx rest ih =>
    obtain ⟨k0, x0⟩ := kx
    intro i
    rw [strPosFields]
    refine List.Nodup.append ?_ (ih (fun y hy => IH y (List.mem_cons_of_mem _ hy)) (i + 1)) ?_
    · exact (IH (k0, x0) (by simp)).map (fun a b hab => by simpa using hab)
    · intro p hp hp'
      obtain ⟨q, _, rfl⟩ := List.mem_map.mp hp
      obtain ⟨j, k, x', p', _, h2, _⟩ := (strPosFields_mem rest (i + 1) _).mp hp'
      have : i = i + 1 + j := by
        have := congrArg (fun l => l.headI) h2
        simpa using this
      omega

/-- A value's string positions contain no duplicates. -/
theorem strPosEntry_nodup (v : JsonValue) : (strPosEntry v).Nodup := by
  induction v using JsonValue.inductionOn with
  | hstr s => simp [strPosEntry]
  | hnum n => simp [strPosEntry]
  | hbool b => simp [strPosEntry]
  | hnull => simp [strPosEntry]
  | harr xs ih => exact strPosElems_nodup xs ih 0
  | hobj fields ih => exact strPosFields_nodup fields ih 0

/-- The two content handlers are the same function: `processMarkdown`
(src/unnamed/part_000) and `handleMarkdownContent` (src/index.ts) have
character-for-character the same logic. -/
theorem processMarkdown_eq (c : PluginCtx) (content : String) :
    processMarkdown c content = handleMarkdownContent c content := rfl

/-- The two element loops agree, assuming the entry steps agree on members. -/
theorem pElems_eq (c : PluginCtx) (xs : List JsonValue)
    (IH : ∀ x ∈ xs, pEntry c x = goEntry c x) :
    pElems c xs = goElems c xs := by
  induction xs with
  | nil => simp [pElems, goElems]
  | cons x rest ih =>
    have hx := IH x (by simp)
    have hrest := ih (fun y hy => IH y (List.mem_cons_of_mem _ hy))
    rcases hr : goEntry c x with ⟨x', e⟩
    rw [hr] at hx
    cases e with
    | some err => simp [pElems, goElems, hx, hr]
    | none => simp [pElems, goElems, hx, hr, hrest]

/-- The two field loops agree, assuming the entry steps agree on members. -/
theorem pFields_eq (c : PluginCtx) (fields : List (String × JsonValue))
    (IH : ∀ kx ∈ fields, pEntry c kx.2 = goEntry c kx.2) :
    pFields c fields = goFields c fields := by
  induction fields with
  | nil => simp [pFields, goFields]
  | cons kx rest ih =>
    obtain ⟨k0, x0⟩ := kx
    have hx := IH (k0, x0) (by simp)
    have hrest := ih (fun y hy => IH y (List.mem_cons_of_mem _ hy))
    rcases hr : goEntry c x0 with ⟨x0', e⟩
    rw [hr] at hx
    cases e with
    | some err => simp [pFields, goFields, hx, hr]
    | none => simp [pFields, goFields, hx, hr, hrest]

/-- The two entry steps agree on every value. -/
theorem pEntry_eq (c : PluginCtx) (v : JsonValue) : pEntry c v = goEntry c v := by
  induction v using JsonValue.inductionOn with
  | hstr s => simp [pEntry, goEntry, processMarkdown_eq]
  | hnum n => simp [pEntry, goEntry]
  | hbool b => simp [pEntry, goEntry]
  | hnull => simp [pEntry, goEntry]
  | harr xs ih => simp [pEntry, goEntry, pElems_eq c xs ih]
  | hobj fields ih => simp [pEntry, goEntry, pFields_eq c fields ih]

/-- A value that has a child position is a mapping or a sequence. -/
theorem container_of_valueAt_cons (v : JsonValue) (i : Nat) (q : List Nat)
    (x : JsonValue) (hv : valueAt v (i :: q) = some x) :
    (∃ fields, v = .obj fields) ∨ (∃ xs, v = .arr xs) := by
  cases v with
  | obj fields => exact Or.inl ⟨fields, rfl⟩
  | arr xs => exact Or.inr ⟨xs, rfl⟩
  | str s => rw [valueAt_str_cons] at hv; exact Option.noConfusion hv
  | num n => rw [valueAt_num_cons] at hv; exact Option.noConfusion hv
  | bool b => rw [valueAt_bool_cons] at hv; exact Option.noConfusion hv
  | null => rw [valueAt_null_cons] at hv; exact Option.noConfusion hv

/-- C1: the code ignores the externalLinks policy.  The options declaration
(src/index.ts lines 378-383) documents `externalLinks` as adding the
target-new-context and no-referrer attributes to all links, but `jsonMdPlugin`
never reads the option — the traversal context is identical for
externalLinks = true and false — and the rendered output of a markup field
containing a hyperlink carries neither attribute even with externalLinks = true,
violating the claim's first half (its second half, that externalLinks = false
yields no attributes, is what the code always does). -/
theorem c1_externalLinks_ignored :
    (∀ e : Bool,
      ctxOfOptions markedModel fsEmpty "md" ⟨true, e⟩ =
        ctxOfOptions markedModel fsEmpty "md" ⟨true, true⟩)
    ∧ traverseJsonNodes (ctxOfOptions markedModel fsEmpty "md" ⟨true, true⟩)
        (.obj [("a", .str "md:[link](/y)")]) =
      (.obj [("a", .str "<p><a href=\"/y\">link</a></p>")], none)
    ∧ strContains "<p><a href=\"/y\">link</a></p>" "target=\"_blank\"" = false
    ∧ strContains "<p><a href=\"/y\">link</a></p>" "rel=\"noopener noreferrer\"" = false :=
  ⟨fun _ => rfl, rfl, by decide, by decide⟩

/-- C2 counterexample: on a document whose first field is inline markup and
whose second field references an unreachable file, the walk fails, but the
document state after the failed walk is not the input document — the first
field has already been rewritten in place. -/
theorem c2_counterexample :
    traverseJsonNodes ⟨markedModel, fsEmpty, "md", false⟩
        (.obj [("a", .str "md:x"), ("b", .str "md:@m.md")]) =
      (.obj [("a", .str "x"), ("b", .str "md:@m.md")], some (.enoent "md/m.md"))
    ∧ JsonValue.obj [("a", .str "x"), ("b", .str "md:@m.md")] ≠
        JsonValue.obj [("a", .str "md:x"), ("b", .str "md:@m.md")] := by
  refine ⟨rfl, ?_⟩
  intro h
  injection h with h1
  injection h1 with h2
  injection h2 with h3 h4
  injection h4 with h5
  simp at h5

/-- C2 (amended): a document containing a reachable external markup field whose
file is unreachable makes the walk fail with the file-read error, and the
per-file pipeline step then produces no output document at all (the error
propagates before anything is written); the in-memory document, however, may
already be partially mutated (see the counterexample). -/
theorem c2_walk_fails (c : PluginCtx) (doc : JsonValue)
    (h : containsBadExternal c doc = true) :
    ∃ e, (traverseJsonNodes c doc).2 = some e ∧
      processFileModel c doc = Except.error e := by
  cases doc with
  | obj fields =>
    have hb : badExternalEntry c (.obj fields) = true := h
    have hs : ((goEntry c (.obj fields)).2).isSome = true := by
      rw [goEntry_err]; exact hb
    rcases hg : goEntry c (.obj fields) with ⟨d, e?⟩
    cases e? with
    | none => rw [hg] at hs; simp at hs
    | some e =>
      refine ⟨e, ?_, ?_⟩
      · show (goEntry c (.obj fields)).2 = some e
        rw [hg]
      · show processFileModel c (.obj fields) = Except.error e
        rw [processFileModel]
        have htr : traverseJsonNodes c (.obj fields) = (d, some e) := hg
        rw [htr]
  | arr xs =>
    have hb : badExternalEntry c (.arr xs) = true := h
    have hs : ((goEntry c (.arr xs)).2).isSome = true := by
      rw [goEntry_err]; exact hb
    rcases hg : goEntry c (.arr xs) with ⟨d, e?⟩
    cases e? with
    | none => rw [hg] at hs; simp at hs
    | some e =>
      refine ⟨e, ?_, ?_⟩
      · show (goEntry c (.arr xs)).2 = some e
        rw [hg]
      · show processFileModel c (.arr xs) = Except.error e
        rw [processFileModel]
        have htr : traverseJsonNodes c (.arr xs) = (d, some e) := hg
        rw [htr]
  | str s =>
    have hf : containsBadExternal c (.str s) = false := rfl
    rw [hf] at h
    exact Bool.noConfusion h
  | num n =>
    have hf : containsBadExternal c (.num n) = false := rfl
    rw [hf] at h
    exact Bool.noConfusion h
  | bool b =>
    have hf : containsBadExternal c (.bool b) = false := rfl
    rw [hf] at h
    exact Bool.noConfusion h
  | null =>
    have hf : containsBadExternal c .null = false := rfl
    rw [hf] at h
    exact Bool.noConfusion h

/-- C2 witness: the amended claim at the counterexample's document. -/
theorem c2_witness :
    ∃ e, (traverseJsonNodes ⟨markedModel, fsEmpty, "md", false⟩
        (.obj [("a", .str "md:x"), ("b", .str "md:@m.md")])).2 = some e ∧
      processFileModel ⟨markedModel, fsEmpty, "md", false⟩
        (.obj [("a", .str "md:x"), ("b", .str "md:@m.md")]) = Except.error e :=
  c2_walk_fails _ _ (by decide)

/-- C3: a string field (under at least one container) beginning with "md:" and
not with "md:@" is, after a successful walk, exactly the rendered inline
remainder: `render` applied to the value with the three-character marker
removed, under the walk's policy. -/
theorem c3_inline_field (c : PluginCtx) (doc : JsonValue) (p : List Nat) (s : String)
    (hp : p ≠ []) (hv : valueAt doc p = some (.str s))
    (hmd : strStartsWith s "md:" = true) (hnotAt : strStartsWith s "md:@" = false)
    (hok : (traverseJsonNodes c doc).2 = none) :
    valueAt (traverseJsonNodes c doc).1 p = some (.str (render c (strDrop s 3))) := by
  cases p with
  | nil => exact absurd rfl hp
  | cons i q =>
    have hcont := container_of_valueAt_cons doc i q _ hv
    have htr : traverseJsonNodes c doc = goEntry c doc := by
      rcases hcont with ⟨fields, rfl⟩ | ⟨xs, rfl⟩ <;> rfl
    rw [htr] at hok ⊢
    obtain ⟨w, hw, hvout⟩ := goEntry_success_str c doc hok (i :: q) s hv
    have hh : handleMarkdownContent c s = .ok (render c (strDrop s 3)) := by
      rw [handleMarkdownContent, hnotAt]
      simp
    rw [goEntry, hmd] at hw
    simp only [hh, if_true] at hw
    simp only [Prod.mk.injEq, JsonValue.str.injEq, and_true] at hw
    rw [hw]
    exact hvout

/-- C3 witness: the spec's inline scenario, heading field rendered to an h1. -/
theorem c3_witness :
    valueAt (traverseJsonNodes ⟨markedModel, fsEmpty, "md", true⟩
        (.obj [("a", .str "md:# Hi")])).1 [0] =
      some (.str (render ⟨markedModel, fsEmpty, "md", true⟩ (strDrop "md:# Hi" 3)))
    ∧ render ⟨markedModel, fsEmpty, "md", true⟩ (strDrop "md:# Hi" 3) = "<h1>Hi</h1>" :=
  ⟨c3_inline_field _ _ [0] "md:# Hi" (by simp) rfl (by decide) (by decide) rfl, by decide⟩

/-- C4: a string field (under at least one container) beginning with "md:@"
whose referenced file is readable is, after a successful walk, exactly the
rendered contents of the file read from the markdown root joined with the
relative path, under the walk's policy. -/
theorem c4_external_field (c : PluginCtx) (doc : JsonValue) (p : List Nat)
    (s t : String)
    (hp : p ≠ []) (hv : valueAt doc p = some (.str s))
    (hAt : strStartsWith s "md:@" = true)
    (hread : c.fsRead (pathJoin c.markdownDir (strDrop s 4)) = some t)
    (hok : (traverseJsonNodes c doc).2 = none) :
    valueAt (traverseJsonNodes c doc).1 p = some (.str (render c t)) := by
  cases p with
  | nil => exact absurd rfl hp
  | cons i q =>
    have hmd : strStartsWith s "md:" = true := strStartsWith_of_mdAt s hAt
    have hcont := container_of_valueAt_cons doc i q _ hv
    have htr : traverseJsonNodes c doc = goEntry c doc := by
      rcases hcont with ⟨fields, rfl⟩ | ⟨xs, rfl⟩ <;> rfl
    rw [htr] at hok ⊢
    obtain ⟨w, hw, hvout⟩ := goEntry_success_str c doc hok (i :: q) s hv
    have hh : handleMarkdownContent c s = .ok (render c t) := by
      rw [handleMarkdownContent, hAt]
      simp [hread]
    rw [goEntry, hmd] at hw
    simp only [hh, if_true] at hw
    simp only [Prod.mk.injEq, JsonValue.str.injEq, and_true] at hw
    rw [hw]
    exact hvout

/-- C4 witness: the external-file scenario, with the file's text rendered as a
paragraph with a hyperlink. -/
theorem c4_witness :
    valueAt (traverseJsonNodes ⟨markedModel, fsDemo, "md", true⟩
        (.obj [("a", .str "md:@x.md")])).1 [0] =
      some (.str (render ⟨markedModel, fsDemo, "md", true⟩ "Hello [link](/y)"))
    ∧ render ⟨markedModel, fsDemo, "md", true⟩ "Hello [link](/y)" =
        "<p>Hello <a href=\"/y\">link</a></p>" :=
  ⟨c4_external_field _ _ [0] "md:@x.md" "Hello [link](/y)"
      (by simp) rfl (by decide) (by decide) rfl,
   by decide⟩

/-- C5 counterexample: the error surfaced by the per-file step is the same
value for two different input files processing two different documents, and its
path payload does not contain either input file's path — so the surfaced error
does not identify the document being processed, only the unreadable file. -/
theorem c5_counterexample :
    processInputFile ⟨markedModel, fsEmpty, "md", false⟩ "en/a.json5"
        (.obj [("a", .str "md:@m.md")]) = Except.error (.enoent "md/m.md")
    ∧ processInputFile ⟨markedModel, fsEmpty, "md", false⟩ "fr/b.json5"
        (.obj [("x", .num 3), ("a", .str "md:@m.md")]) = Except.error (.enoent "md/m.md")
    ∧ strContains "md/m.md" "en/a.json5" = false
    ∧ strContains "md/m.md" "fr/b.json5" = false :=
  ⟨rfl, rfl, by decide, by decide⟩

/-- C5 (amended): every error surfacing from a walk is the file-read error for
some external markup field actually present in the document, and its payload is
exactly the markdown root joined with that field's relative path — the
offending path is identified; the input document is not part of the error. -/
theorem c5_error_names_path (c : PluginCtx) (doc : JsonValue) (e : FsError)
    (h : (traverseJsonNodes c doc).2 = some e) :
    ∃ (p : List Nat) (s : String), p ≠ [] ∧ valueAt doc p = some (.str s) ∧
      strStartsWith s "md:@" = true ∧
      c.fsRead (pathJoin c.markdownDir (strDrop s 4)) = none ∧
      e = .enoent (pathJoin c.markdownDir (strDrop s 4)) := by
  cases doc with
  | obj fields =>
    have hfl : (goFields c fields).2 = some e := h
    obtain ⟨i, k, x, hg, he⟩ := goFields_some c fields e hfl
    obtain ⟨p, s, h1, h2, h3, h4⟩ := goEntry_some_err c x e he
    refine ⟨i :: p, s, by simp, ?_, h2, h3, h4⟩
    simp only [valueAt, hg]
    exact h1
  | arr xs =>
    have hel : (goElems c xs).2 = some e := h
    obtain ⟨i, x, hg, he⟩ := goElems_some c xs e hel
    obtain ⟨p, s, h1, h2, h3, h4⟩ := goEntry_some_err c x e he
    refine ⟨i :: p, s, by simp, ?_, h2, h3, h4⟩
    simp only [valueAt, hg]
    exact h1
  | str s => exact Option.noConfusion h
  | num n => exact Option.noConfusion h
  | bool b => exact Option.noConfusion h
  | null => exact Option.noConfusion h

/-- C5 witness: the amended claim at a concrete failing document. -/
theorem c5_witness :
    ∃ (p : List Nat) (s : String), p ≠ [] ∧
      valueAt (JsonValue.obj [("a", JsonValue.str "md:@m.md")]) p =
        some (.str s) ∧
      strStartsWith s "md:@" = true ∧
      fsEmpty (pathJoin "md" (strDrop s 4)) = none ∧
      FsError.enoent "md/m.md" = .enoent (pathJoin "md" (strDrop s 4)) :=
  c5_error_names_path ⟨markedModel, fsEmpty, "md", false⟩ _ _ rfl

/-- C6 counterexample: with parseMarkdown = false, the markup field
"md:md:x" is replaced by the raw remainder "md:x", so after a successful walk
a string field can still begin with the reserved marker. -/
theorem c6_counterexample :
    traverseJsonNodes ⟨markedModel, fsEmpty, "md", false⟩
        (.obj [("a", .str "md:md:x")]) =
      (.obj [("a", .str "md:x")], none)
    ∧ strStartsWith "md:x" "md:" = true :=
  ⟨rfl, by decide⟩

/-- C6 (amended): after a successful walk every markup field has been replaced,
exactly once, by the successful result of the content handler on its input
value — the input marker is consumed — though the replacement value may itself
begin with "md:" (see the counterexample). -/
theorem c6_marker_consumed (c : PluginCtx) (doc : JsonValue) (p : List Nat) (s : String)
    (hp : p ≠ []) (hv : valueAt doc p = some (.str s))
    (hmd : strStartsWith s "md:" = true)
    (hok : (traverseJsonNodes c doc).2 = none) :
    ∃ w, handleMarkdownContent c s = .ok w ∧
      valueAt (traverseJsonNodes c doc).1 p = some (.str w) := by
  cases p with
  | nil => exact absurd rfl hp
  | cons i q =>
    have hcont := container_of_valueAt_cons doc i q _ hv
    have htr : traverseJsonNodes c doc = goEntry c doc := by
      rcases hcont with ⟨fields, rfl⟩ | ⟨xs, rfl⟩ <;> rfl
    rw [htr] at hok ⊢
    obtain ⟨w, hw, hvout⟩ := goEntry_success_str c doc hok (i :: q) s hv
    rw [goEntry, hmd] at hw
    cases hh : handleMarkdownContent c s with
    | ok w' =>
      simp only [hh, if_true] at hw
      simp only [Prod.mk.injEq, JsonValue.str.injEq, and_true] at hw
      refine ⟨w', rfl, ?_⟩
      rw [hw]
      exact hvout
    | error e =>
      simp only [hh, if_true] at hw
      simp at hw

/-- C6 witness: the amended claim at a concrete inline markup field. -/
theorem c6_witness :
    ∃ w, handleMarkdownContent ⟨markedModel, fsEmpty, "md", false⟩ "md:md:x" = .ok w ∧
      valueAt (traverseJsonNodes ⟨markedModel, fsEmpty, "md", false⟩
          (.obj [("a", .str "md:md:x")])).1 [0] = some (.str w) :=
  c6_marker_consumed _ _ [0] "md:md:x" (by simp) rfl (by decide) rfl

/-- C7 counterexample: a document whose root is itself a markup string leaf is
returned untouched and never examined — the instrumented walk logs no visit
even though the root is a reachable string beginning with "md:", contradicting
the claim that every reachable string field is visited and, being markup,
replaced. -/
theorem c7_counterexample :
    traverseJsonNodes ⟨markedModel, fsEmpty, "md", true⟩ (.str "md:# Hi") =
      (.str "md:# Hi", none)
    ∧ (traverseLog ⟨markedModel, fsEmpty, "md", true⟩ (.str "md:# Hi")).2 = []
    ∧ valueAt (.str "md:# Hi") [] = some (.str "md:# Hi")
    ∧ strStartsWith "md:# Hi" "md:" = true :=
  ⟨rfl, rfl, rfl, by decide⟩

/-- C7 (amended): on a successful walk, the instrumented traversal computes the
same result as the walk, and its visit log holds, without duplicates, exactly
the positions of the string fields reachable through at least one container —
every such field is examined exactly once, nothing below a non-container leaf
is ever visited, and a string at the root (the empty position) is never
examined. -/
theorem c7_visits (c : PluginCtx) (doc : JsonValue)
    (hok : (traverseJsonNodes c doc).2 = none) :
    (traverseLog c doc).1 = traverseJsonNodes c doc
    ∧ (traverseLog c doc).2.Nodup
    ∧ ∀ p : List Nat, p ∈ (traverseLog c doc).2 ↔
        (p ≠ [] ∧ ∃ s, valueAt doc p = some (.str s)) := by
  cases doc with
  | obj fields =>
    have hok' : (goEntry c (.obj fields)).2 = none := hok
    have h1 : (traverseLog c (.obj fields)).1 = traverseJsonNodes c (.obj fields) :=
      logEntry_fst c (.obj fields)
    have hlog : (traverseLog c (.obj fields)).2 = strPosEntry (.obj fields) :=
      logEntry_log c (.obj fields) hok'
    refine ⟨h1, ?_, ?_⟩
    · rw [hlog]; exact strPosEntry_nodup _
    · intro p
      rw [hlog, strPosEntry_mem]
      constructor
      · rintro ⟨s, hs⟩
        refine ⟨?_, ⟨s, hs⟩⟩
        intro hnil
        subst hnil
        rw [valueAt_nil] at hs
        injection hs with h2
        exact JsonValue.noConfusion h2
      · rintro ⟨_, hex⟩
        exact hex
  | arr xs =>
    have hok' : (goEntry c (.arr xs)).2 = none := hok
    have h1 : (traverseLog c (.arr xs)).1 = traverseJsonNodes c (.arr xs) :=
      logEntry_fst c (.arr xs)
    have hlog : (traverseLog c (.arr xs)).2 = strPosEntry (.arr xs) :=
      logEntry_log c (.arr xs) hok'
    refine ⟨h1, ?_, ?_⟩
    · rw [hlog]; exact strPosEntry_nodup _
    · intro p
      rw [hlog, strPosEntry_mem]
      constructor
      · rintro ⟨s, hs⟩
        refine ⟨?_, ⟨s, hs⟩⟩
        intro hnil
        subst hnil
        rw [valueAt_nil] at hs
        injection hs with h2
        exact JsonValue.noConfusion h2
      · rintro ⟨_, hex⟩
        exact hex
  | str s =>
    refine ⟨rfl, List.nodup_nil, ?_⟩
    intro p
    constructor
    · intro hp
      exact absurd hp (List.not_mem_nil p)
    · rintro ⟨hne, s', hs'⟩
      cases p with
      | nil => exact absurd rfl hne
      | cons i q => rw [valueAt_str_cons] at hs'; exact Option.noConfusion hs'
  | num n =>
    refine ⟨rfl, List.nodup_nil, ?_⟩
    intro p
    constructor
    · intro hp
      exact absurd hp (List.not_mem_nil p)
    · rintro ⟨hne, s', hs'⟩
      cases p with
      | nil =>
        rw [valueAt_nil] at hs'
        injection hs' with h2
        exact JsonValue.noConfusion h2
      | cons i q => rw [valueAt_num_cons] at hs'; exact Option.noConfusion hs'
  | bool b =>
    refine ⟨rfl, List.nodup_nil, ?_⟩
    intro p
    constructor
    · intro hp
      exact absurd hp (List.not_mem_nil p)
    · rintro ⟨hne, s', hs'⟩
      cases p with
      | nil =>
        rw [valueAt_nil] at hs'
        injection hs' with h2
        exact JsonValue.noConfusion h2
      | cons i q => rw [valueAt_bool_cons] at hs'; exact Option.noConfusion hs'
  | null =>
    refine ⟨rfl, List.nodup_nil, ?_⟩
    intro p
    constructor
    · intro hp
      exact absurd hp (List.not_mem_nil p)
    · rintro ⟨hne, s', hs'⟩
      cases p with
      | nil =>
        rw [valueAt_nil] at hs'
        injection hs' with h2
        exact JsonValue.noConfusion h2
      | cons i q => rw [valueAt_null_cons] at hs'; exact Option.noConfusion hs'

/-- C7 witness: the amended claim at a concrete nested document, instantiated
at the position of the nested string "y". -/
theorem c7_witness :
    (traverseLog ⟨markedModel, fsEmpty, "md", false⟩
        (.obj [("a", .str "md:x"), ("b", .arr [.num 1, .str "y"])])).1 =
      traverseJsonNodes ⟨markedModel, fsEmpty, "md", false⟩
        (.obj [("a", .str "md:x"), ("b", .arr [.num 1, .str "y"])])
    ∧ (traverseLog ⟨markedModel, fsEmpty, "md", false⟩
        (.obj [("a", .str "md:x"), ("b", .arr [.num 1, .str "y"])])).2.Nodup
    ∧ ([1, 1] ∈ (traverseLog ⟨markedModel, fsEmpty, "md", false⟩
          (.obj [("a", .str "md:x"), ("b", .arr [.num 1, .str "y"])])).2 ↔
        (([1, 1] : List Nat) ≠ [] ∧ ∃ s,
          valueAt (.obj [("a", .str "md:x"), ("b", .arr [.num 1, .str "y"])]) [1, 1] =
            some (.str s))) :=
  by
  have h := c7_visits ⟨markedModel, fsEmpty, "md", false⟩
      (.obj [("a", .str "md:x"), ("b", .arr [.num 1, .str "y"])]) rfl
  exact ⟨h.1, h.2.1, h.2.2 [1, 1]⟩

/-- C8: the walk never changes a non-markup scalar field (numbers, booleans,
null, strings without the marker are bit-identical at their positions), always
preserves the document's shape — container keys, lengths and sibling order —
and is a no-op, with no error, on a document containing no marker-prefixed
string. -/
theorem c8_frame (c : PluginCtx) (doc : JsonValue) :
    (∀ (p : List Nat) (x : JsonValue), valueAt doc p = some x →
      nonMarkupScalar x = true → valueAt (traverseJsonNodes c doc).1 p = some x)
    ∧ skeleton (traverseJsonNodes c doc).1 = skeleton doc
    ∧ (hasMdString doc = false → traverseJsonNodes c doc = (doc, none)) := by
  cases doc with
  | obj fields =>
    exact ⟨goEntry_frame c _, skeleton_goEntry c _, fun h => goEntry_noMd c _ h⟩
  | arr xs =>
    exact ⟨goEntry_frame c _, skeleton_goEntry c _, fun h => goEntry_noMd c _ h⟩
  | str s => exact ⟨fun p x hv _ => hv, rfl, fun _ => rfl⟩
  | num n => exact ⟨fun p x hv _ => hv, rfl, fun _ => rfl⟩
  | bool b => exact ⟨fun p x hv _ => hv, rfl, fun _ => rfl⟩
  | null => exact ⟨fun p x hv _ => hv, rfl, fun _ => rfl⟩

/-- C8 witness: the frame claim at a concrete markup-free document. -/
theorem c8_witness :
    valueAt (traverseJsonNodes ⟨markedModel, fsEmpty, "md", true⟩
        (.obj [("a", .str "plain"), ("b", .num 1)])).1 [0] = some (.str "plain")
    ∧ skeleton (traverseJsonNodes ⟨markedModel, fsEmpty, "md", true⟩
        (.obj [("a", .str "plain"), ("b", .num 1)])).1 =
      skeleton (.obj [("a", .str "plain"), ("b", .num 1)])
    ∧ traverseJsonNodes ⟨markedModel, fsEmpty, "md", true⟩
        (.obj [("a", .str "plain"), ("b", .num 1)]) =
      (.obj [("a", .str "plain"), ("b", .num 1)], none) :=
  ⟨(c8_frame _ _).1 [0] _ rfl (by decide),
   (c8_frame _ _).2.1,
   (c8_frame _ _).2.2 (by decide)⟩

/-- C9: with parseMarkdown = false the handler returns the raw resolved markup
source verbatim, for any renderer: an inline field yields the value with the
three-character marker removed, an external field the referenced file's
contents, with no markup interpretation applied. -/
theorem c9_raw_mode (marked : String → String) (fsr : String → Option String)
    (dir content t : String) :
    (strStartsWith content "md:@" = false →
      handleMarkdownContent ⟨marked, fsr, dir, false⟩ content =
        .ok (strDrop content 3))
    ∧ (strStartsWith content "md:@" = true →
      fsr (pathJoin dir (strDrop content 4)) = some t →
      handleMarkdownContent ⟨marked, fsr, dir, false⟩ content = .ok t) := by
  constructor
  · intro h
    rw [handleMarkdownContent, h]
    simp [render]
  · intro h hr
    rw [handleMarkdownContent, h]
    simp [hr, render]

/-- C9 witness: raw mode on a concrete inline field and a concrete external
field. -/
theorem c9_witness :
    handleMarkdownContent ⟨markedModel, fsEmpty, "md", false⟩ "md:**x**" =
      .ok (strDrop "md:**x**" 3)
    ∧ strDrop "md:**x**" 3 = "**x**"
    ∧ handleMarkdownContent ⟨markedModel, fsDemo, "md", false⟩ "md:@x.md" =
      .ok "Hello [link](/y)" :=
  ⟨(c9_raw_mode markedModel fsEmpty "md" "md:**x**" "").1 (by decide),
   by decide,
   (c9_raw_mode markedModel fsDemo "md" "md:@x.md" "Hello [link](/y)").2
     (by decide) (by decide)⟩

/-- C10: the two traversal implementations — `traverseJsonNodes` with
`handleMarkdownContent` (src/index.ts) and `processJsonTree` with
`processMarkdown` (src/unnamed/part_000) — compute identical resulting
documents and identical errors on every document, markdown root, renderer and
policy. -/
theorem c10_equiv (c : PluginCtx) (v : JsonValue) :
    processJsonTree c v = traverseJsonNodes c v := by
  cases v with
  | obj fields => exact pEntry_eq c _
  | arr xs => exact pEntry_eq c _
  | str s => rfl
  | num n => rfl
  | bool b => rfl
  | null => rfl
